import Mathlib

/-!
A shallow embedding of `src/automaton.py`, a small library for deterministic
finite-state automata with Moore- and Mealy-style output specializations.

Modelling conventions:
* Python `dict`s are association lists with first-match lookup (`dictGet`)
  and update-or-append write (`dictSet`); a Python dict (unique keys) is
  represented exactly by such a list.
* A Python `State` object is identified by its name: the `Automaton` creates
  exactly one `State` per declared name, never replaces them, and every
  reference stored in a successor map is obtained as `self.states[name]`.
  Successor maps and the cursor therefore store names, and dereferencing a
  name means looking it up in the automaton's `states` dict.
* Python exceptions are an `Except AutError` result; `KeyError` and
  `ValueError` become the two constructors of `AutError`.
* The caller-supplied `output_func` callbacks are modelled as a trace of
  `OutEvent`s emitted by each operation, paired with its `Except` outcome;
  events emitted before an exception would appear in the trace, so a call
  that raises before any hook runs has an empty trace.
* Dynamic dispatch of the `_enter_state` / `_exit_state` hooks follows the
  Python method-resolution order via `AutKind`: `MooreAutomaton` overrides
  only `_enter_state`, `MealyAutomaton` overrides only `_exit_state`, and
  the base class versions are no-ops.
-/

namespace AutomatonPy

/-- First-match lookup in an association list: models reading a Python
`dict` (`d[k]` / `k in d` / `d.get`). -/
def dictGet {α β : Type} [DecidableEq α] : List (α × β) → α → Option β
  | [], _ => none
  | (k, v) :: rest, k0 => if k = k0 then some v else dictGet rest k0

/-- Update-or-append write in an association list: models a Python
`d[k] = v` assignment. -/
def dictSet {α β : Type} [DecidableEq α] : List (α × β) → α → β → List (α × β)
  | [], k0, v0 => [(k0, v0)]
  | (k, v) :: rest, k0, v0 =>
    if k = k0 then (k0, v0) :: rest else (k, v) :: dictSet rest k0 v0

/-- Python `class State` (src/automaton.py lines 5-23): a named node with a
successor dict mapping input symbols to successor states (stored by name,
see the modelling conventions above). -/
structure State where
  state : String
  successors : List (String × String)
deriving DecidableEq, Repr

/-- `State.set_successor` (line 13-14): `self.successors[entry] = successor`. -/
def State.set_successor (s : State) (entry : String) (successor : String) : State :=
  { s with successors := dictSet s.successors entry successor }

/-- `State.process` (lines 16-20): `return self.successors.get(entry, self)` —
the successor mapped to `entry` if one exists, otherwise the state itself. -/
def State.process (s : State) (entry : String) : String :=
  (dictGet s.successors entry).getD s.state

/-- The exceptions the library raises: `KeyError` from dict indexing
(construction and the `current_state` setter) and the `ValueError` raised by
`Automaton.process` on a symbol outside the alphabet. -/
inductive AutError where
  | keyError (key : String)
  | valueError (msg : String)
deriving DecidableEq, Repr

/-- The fields of a Python `Automaton` object (lines 26-60): the owned
`states` dict, the declared `input_alphabet`, and the cursor `__curr_state`
(stored as the name of the referenced `State`). -/
structure Automaton where
  states : List (String × State)
  input_alphabet : List String
  curr_state : String
deriving DecidableEq, Repr

/-- `self.states = {name: State(name) for name in states}` (line 42). -/
def buildStates (stateNames : List String) : List (String × State) :=
  stateNames.foldl (fun d name => dictSet d name { state := name, successors := [] }) []

/-- The inner loop of `Automaton.__connect_states` (lines 64-68) for one
state `name`: for each `entry` of the alphabet, if `(name, entry)` is a key
of the transition dict, look the successor name up in the states dict
(`KeyError` when absent, propagated out of the constructor) and record it
via `set_successor`. -/
def connectOne (states0 : List (String × State))
    (transition : List ((String × String) × String)) (name : String) :
    State → List String → Except AutError State
  | st, [] => Except.ok st
  | st, entry :: rest =>
    match dictGet transition (name, entry) with
    | some successor_name =>
      match dictGet states0 successor_name with
      | some _ =>
        connectOne states0 transition name (st.set_successor entry successor_name) rest
      | none => Except.error (AutError.keyError successor_name)
    | none => connectOne states0 transition name st rest

/-- The outer loop of `Automaton.__connect_states` (line 63): wire every
state of the dict. Wiring reads only the keys of the original dict
(`self.states[successor_name]`), so each state is connected against
`states0`; the first missing successor aborts construction. -/
def connectAll (states0 : List (String × State)) (input_alphabet : List String)
    (transition : List ((String × String) × String)) :
    List (String × State) → Except AutError (List (String × State))
  | [] => Except.ok []
  | (name, st) :: rest =>
    match connectOne states0 transition name st input_alphabet with
    | Except.error e => Except.error e
    | Except.ok st1 =>
      match connectAll states0 input_alphabet transition rest with
      | Except.error e => Except.error e
      | Except.ok rest1 => Except.ok ((name, st1) :: rest1)

/-- `Automaton.__init__` (lines 30-45): build the states dict, set the
cursor to `self.states[init_state]` (`KeyError` when the initial name is
undeclared — raised before the transition table is compiled), then run
`__connect_states`. -/
def Automaton.mk? (stateNames : List String) (init_state : String)
    (input_alphabet : List String)
    (transition : List ((String × String) × String)) : Except AutError Automaton :=
  let states0 := buildStates stateNames
  match dictGet states0 init_state with
  | none => Except.error (AutError.keyError init_state)
  | some st0 =>
    match connectAll states0 input_alphabet transition states0 with
    | Except.error e => Except.error e
    | Except.ok states1 =>
      Except.ok { states := states1, input_alphabet := input_alphabet,
                  curr_state := st0.state }

/-- The `State` object the cursor `__curr_state` references. The fallback
state is unreachable for any automaton whose cursor names a declared state
(every automaton the constructor produces, see `mk_ok_wf`); it self-loops,
keeping `currStateObj.state` equal to the cursor name. -/
def Automaton.currStateObj (a : Automaton) : State :=
  (dictGet a.states a.curr_state).getD { state := a.curr_state, successors := [] }

/-- `Automaton.__get_state` (lines 54-55), the `current_state` property
read: `return self.__curr_state.state`. -/
def Automaton.current_state (a : Automaton) : String :=
  a.currStateObj.state

/-- Which concrete class an automaton object belongs to, fixing the
dynamic dispatch of the `_enter_state` / `_exit_state` hooks. -/
inductive AutKind where
  | base
  | moore
  | mealy
deriving DecidableEq, Repr

/-- One invocation of a caller-supplied `output_func`:
`OutEvent.moore s` is Moore's `output_func(current_state)` and
`OutEvent.mealy s e` is Mealy's `output_func(current_state, entry)`
(`entry` is `none` for Python `None`). -/
inductive OutEvent where
  | moore (state : String)
  | mealy (state : String) (symbol : Option String)
deriving DecidableEq, Repr

/-- Dispatch of `self._enter_state(entry)`: `MooreAutomaton._enter_state`
(lines 95-96) calls `self.__output_func(self.current_state)`; the base class
version (lines 70-71) is `pass`, and `MealyAutomaton` does not override it. -/
def enterOutputs (k : AutKind) (current_state : String) (entry : Option String) :
    List OutEvent :=
  match k with
  | AutKind.moore => [OutEvent.moore current_state]
  | _ => []

/-- Dispatch of `self._exit_state(entry)`: `MealyAutomaton._exit_state`
(lines 112-113) calls `self.__output_func(self.current_state, entry)`; the
base class version (lines 73-74) is `pass`, and `MooreAutomaton` does not
override it. -/
def exitOutputs (k : AutKind) (current_state : String) (entry : Option String) :
    List OutEvent :=
  match k with
  | AutKind.mealy => [OutEvent.mealy current_state entry]
  | _ => []

/-- `Automaton.process` (lines 47-52) with the hooks dispatched by `k`:
raise `ValueError` when `entry` is not in the alphabet (before any hook
runs), otherwise run the exit hook on the pre-move state, advance the
cursor by `__curr_state.process(entry)`, and run the enter hook on the
post-move state. The first component is the trace of callback invocations
the call performed. -/
def processT (k : AutKind) (a : Automaton) (entry : String) :
    List OutEvent × Except AutError Automaton :=
  if entry ∈ a.input_alphabet then
    let exitEvs := exitOutputs k a.current_state (some entry)
    let a1 : Automaton := { a with curr_state := a.currStateObj.process entry }
    let enterEvs := enterOutputs k a1.current_state (some entry)
    (exitEvs ++ enterEvs, Except.ok a1)
  else
    ([], Except.error (AutError.valueError
      "Unspecified input, not accepted by this automaton!"))

/-- The automaton object after a `process` call, exception paths included:
a raised exception propagates and leaves the object as it was. -/
def processRun (k : AutKind) (a : Automaton) (entry : String) : Automaton :=
  match (processT k a entry).2 with
  | Except.ok a1 => a1
  | Except.error _ => a

/-- `Automaton.__set_state` (lines 57-58), the `current_state` property
write: `self.__curr_state = self.states[new_state]` — a `KeyError` when the
name is undeclared, and no hook or callback runs either way (hence the
always-empty trace). -/
def setCurrent (a : Automaton) (new_state : String) :
    List OutEvent × Except AutError Automaton :=
  match dictGet a.states new_state with
  | some st => ([], Except.ok { a with curr_state := st.state })
  | none => ([], Except.error (AutError.keyError new_state))

/-- The automaton object after a `current_state` assignment, exception
paths included. -/
def setRun (a : Automaton) (new_state : String) : Automaton :=
  match (setCurrent a new_state).2 with
  | Except.ok a1 => a1
  | Except.error _ => a

/-- `MooreAutomaton.__init__` (lines 86-93): run the base constructor,
store `output_func`, then call `self._enter_state(None)` — dispatched to
Moore's override, which emits the initial state's name. -/
def mkMoore? (stateNames : List String) (init_state : String)
    (input_alphabet : List String)
    (transition : List ((String × String) × String)) :
    Except AutError (Automaton × List OutEvent) :=
  (Automaton.mk? stateNames init_state input_alphabet transition).map
    fun a => (a, enterOutputs AutKind.moore a.current_state none)

/-- `MealyAutomaton.__init__` (lines 103-110): run the base constructor,
store `output_func`, then call `self._enter_state(None)` — Mealy does not
override `_enter_state`, so this dispatches to the base class no-op. -/
def mkMealy? (stateNames : List String) (init_state : String)
    (input_alphabet : List String)
    (transition : List ((String × String) × String)) :
    Except AutError (Automaton × List OutEvent) :=
  (Automaton.mk? stateNames init_state input_alphabet transition).map
    fun a => (a, enterOutputs AutKind.mealy a.current_state none)

/-- An operation a caller can perform on a constructed automaton:
a `process(symbol)` call or a `current_state = name` assignment. -/
inductive Op where
  | proc (symbol : String)
  | setSt (name : String)
deriving DecidableEq, Repr

/-- Apply one operation, keeping the object unchanged on exception paths. -/
def applyOp (k : AutKind) (a : Automaton) : Op → Automaton
  | Op.proc symbol => processRun k a symbol
  | Op.setSt name => setRun a name

/-- Apply a sequence of operations. -/
def runOps (k : AutKind) (a : Automaton) (ops : List Op) : Automaton :=
  ops.foldl (applyOp k) a

/-! ### Library lemmas about the dict model -/

theorem dictGet_dictSet {α β : Type} [DecidableEq α] (d : List (α × β)) (k k0 : α) (v : β) :
    dictGet (dictSet d k v) k0 = if k = k0 then some v else dictGet d k0 := by
  induction d with
  | nil => simp [dictGet, dictSet]
  | cons p rest ih =>
    obtain ⟨k1, v1⟩ := p
    by_cases h1 : k1 = k
    · subst h1
      by_cases h2 : k1 = k0 <;> simp [dictSet, dictGet, h2]
    · by_cases h2 : k1 = k0
      · subst h2
        have hk : ¬ k = k1 := fun h => h1 h.symm
        simp [dictSet, dictGet, h1, hk]
      · simp [dictSet, dictGet, h1, h2, ih]

theorem dictGet_mem {α β : Type} [DecidableEq α] {d : List (α × β)} {k : α} {v : β}
    (h : dictGet d k = some v) : (k, v) ∈ d := by
  induction d with
  | nil => simp [dictGet] at h
  | cons p rest ih =>
    obtain ⟨k1, v1⟩ := p
    by_cases h1 : k1 = k
    · subst h1
      simp [dictGet] at h
      simp [h]
    · simp [dictGet, h1] at h
      exact List.mem_cons_of_mem _ (ih h)

theorem mem_dictSet {α β : Type} [DecidableEq α] {d : List (α × β)} {k : α} {v : β}
    {p : α × β} (h : p ∈ dictSet d k v) : p = (k, v) ∨ p ∈ d := by
  induction d with
  | nil => simpa [dictSet] using h
  | cons q rest ih =>
    obtain ⟨k1, v1⟩ := q
    by_cases h1 : k1 = k
    · subst h1
      simp [dictSet] at h
      rcases h with h | h
      · exact Or.inl h
      · exact Or.inr (List.mem_cons_of_mem _ h)
    · simp [dictSet, h1] at h
      rcases h with h | h
      · exact Or.inr (by simp [h])
      · rcases ih h with h2 | h2
        · exact Or.inl h2
        · exact Or.inr (List.mem_cons_of_mem _ h2)

theorem dictGet_filter_key {α β : Type} [DecidableEq α] (p : α → Bool)
    (d : List (α × β)) (k : α) (hk : p k = true) :
    dictGet (d.filter fun e => p e.1) k = dictGet d k := by
  induction d with
  | nil => simp
  | cons q rest ih =>
    obtain ⟨k1, v1⟩ := q
    by_cases h1 : k1 = k
    · subst h1
      simp [List.filter, hk, dictGet]
    · by_cases h2 : p k1 <;> simp [List.filter, h2, dictGet, h1, ih]

/-! ### The states dict built by the constructor -/

theorem buildStates_foldl_get (ns : List String) (acc : List (String × State)) (k : String) :
    dictGet (ns.foldl (fun d name => dictSet d name { state := name, successors := [] }) acc) k
      = if k ∈ ns then some { state := k, successors := [] } else dictGet acc k := by
  induction ns generalizing acc with
  | nil => simp
  | cons n rest ih =>
    simp only [List.foldl_cons, ih, dictGet_dictSet]
    by_cases hk : k ∈ rest
    · simp [hk]
    · by_cases hn : n = k
      · subst hn
        simp [hk]
      · have hkn : ¬ k = n := fun h => hn h.symm
        simp [hk, hn, hkn, List.mem_cons]

theorem buildStates_get (ns : List String) (k : String) :
    dictGet (buildStates ns) k
      = if k ∈ ns then some { state := k, successors := [] } else none := by
  simpa [dictGet] using buildStates_foldl_get ns [] k

theorem buildStates_get_isSome (ns : List String) (k : String) :
    (dictGet (buildStates ns) k).isSome = true ↔ k ∈ ns := by
  rw [buildStates_get]
  by_cases hk : k ∈ ns <;> simp [hk]

theorem mem_buildStates {ns : List String} {p : String × State}
    (h : p ∈ buildStates ns) : p.1 ∈ ns := by
  unfold buildStates at h
  have aux : ∀ (l : List String) (acc : List (String × State)),
      (∀ q ∈ acc, (q : String × State).1 ∈ ns) → (∀ n ∈ l, n ∈ ns) →
      ∀ q ∈ l.foldl (fun d name => dictSet d name { state := name, successors := [] }) acc,
        (q : String × State).1 ∈ ns := by
    intro l
    induction l with
    | nil => intro acc hacc _ q hq; exact hacc q hq
    | cons n rest ih =>
      intro acc hacc hl q hq
      refine ih _ ?_ (fun m hm => hl m (List.mem_cons_of_mem _ hm)) q hq
      intro r hr
      rcases mem_dictSet hr with h2 | h2
      · subst h2; exact hl n (List.mem_cons_self _ _)
      · exact hacc r h2
  exact aux ns [] (by simp) (fun n hn => hn) p h

/-! ### Transition-table compilation -/

theorem connectOne_ok_state {states0 : List (String × State)}
    {trans : List ((String × String) × String)} {name : String} {alpha : List String} :
    ∀ {st st1 : State}, connectOne states0 trans name st alpha = Except.ok st1 →
      st1.state = st.state := by
  induction alpha with
  | nil =>
    intro st st1 h
    simp only [connectOne, Except.ok.injEq] at h
    simp [← h]
  | cons entry rest ih =>
    intro st st1 h
    rcases htr : dictGet trans (name, entry) with _ | sn
    · simp only [connectOne, htr] at h
      exact ih h
    · rcases hs : dictGet states0 sn with _ | s0
      · simp only [connectOne, htr, hs] at h
        exact Except.noConfusion h
      · simp only [connectOne, htr, hs] at h
        simpa [State.set_successor] using ih h

theorem connectOne_ok_successors {states0 : List (String × State)}
    {trans : List ((String × String) × String)} {name : String} {alpha : List String} :
    ∀ {st st1 : State}, connectOne states0 trans name st alpha = Except.ok st1 →
      ∀ sym succ, dictGet st1.successors sym = some succ →
        dictGet st.successors sym = some succ ∨ (dictGet states0 succ).isSome = true := by
  induction alpha with
  | nil =>
    intro st st1 h sym succ hget
    simp only [connectOne, Except.ok.injEq] at h
    subst h
    exact Or.inl hget
  | cons entry rest ih =>
    intro st st1 h sym succ hget
    rcases htr : dictGet trans (name, entry) with _ | sn
    · simp only [connectOne, htr] at h
      exact ih h sym succ hget
    · rcases hs : dictGet states0 sn with _ | s0
      · simp only [connectOne, htr, hs] at h
        exact Except.noConfusion h
      · simp only [connectOne, htr, hs] at h
        rcases ih h sym succ hget with h2 | h2
        · simp only [State.set_successor, dictGet_dictSet] at h2
          by_cases he : entry = sym
          · rw [if_pos he] at h2
            injection h2 with h2
            subst h2
            exact Or.inr (by simp [hs])
          · rw [if_neg he] at h2
            exact Or.inl h2
        · exact Or.inr h2

theorem connectOne_error_iff {states0 : List (String × State)}
    {trans : List ((String × String) × String)} {name : String} {alpha : List String} :
    ∀ {st : State},
      (∃ e, connectOne states0 trans name st alpha = Except.error e) ↔
        ∃ sym, sym ∈ alpha ∧ ∃ succ, dictGet trans (name, sym) = some succ ∧
          dictGet states0 succ = none := by
  induction alpha with
  | nil =>
    intro st
    simp [connectOne]
  | cons entry rest ih =>
    intro st
    constructor
    · rintro ⟨e, h⟩
      rcases htr : dictGet trans (name, entry) with _ | sn
      · simp only [connectOne, htr] at h
        obtain ⟨sym, hsym, succ, h1, h2⟩ := ih.mp ⟨e, h⟩
        exact ⟨sym, List.mem_cons_of_mem _ hsym, succ, h1, h2⟩
      · rcases hs : dictGet states0 sn with _ | s0
        · exact ⟨entry, List.mem_cons_self _ _, sn, htr, hs⟩
        · simp only [connectOne, htr, hs] at h
          obtain ⟨sym, hsym, succ, h1, h2⟩ := ih.mp ⟨e, h⟩
          exact ⟨sym, List.mem_cons_of_mem _ hsym, succ, h1, h2⟩
    · rintro ⟨sym, hsym, succ, h1, h2⟩
      rcases htr : dictGet trans (name, entry) with _ | sn
      · rcases List.mem_cons.mp hsym with rfl | hsym2
        · rw [htr] at h1
          exact absurd h1 (by simp)
        · obtain ⟨e, he⟩ := ih.mpr ⟨sym, hsym2, succ, h1, h2⟩
          exact ⟨e, by simp only [connectOne, htr]; exact he⟩
      · rcases hs : dictGet states0 sn with _ | s0
        · exact ⟨AutError.keyError sn, by simp only [connectOne, htr, hs]⟩
        · rcases List.mem_cons.mp hsym with rfl | hsym2
          · rw [htr] at h1
            injection h1 with h1
            subst h1
            rw [hs] at h2
            exact absurd h2 (by simp)
          · obtain ⟨e, he⟩ := ih.mpr ⟨sym, hsym2, succ, h1, h2⟩
            exact ⟨e, by simp only [connectOne, htr, hs]; exact he⟩

theorem connectOne_congr {states0 : List (String × State)}
    {t1 t2 : List ((String × String) × String)} {name : String} {alpha : List String}
    (h : ∀ sym ∈ alpha, dictGet t1 (name, sym) = dictGet t2 (name, sym)) :
    ∀ st, connectOne states0 t1 name st alpha = connectOne states0 t2 name st alpha := by
  induction alpha with
  | nil => intro st; simp [connectOne]
  | cons entry rest ih =>
    intro st
    have hhead : dictGet t1 (name, entry) = dictGet t2 (name, entry) :=
      h entry (List.mem_cons_self _ _)
    have hrest : ∀ sym ∈ rest, dictGet t1 (name, sym) = dictGet t2 (name, sym) :=
      fun sym hsym => h sym (List.mem_cons_of_mem _ hsym)
    rcases htr : dictGet t2 (name, entry) with _ | sn
    · rw [htr] at hhead
      simp only [connectOne, hhead, htr]
      exact ih hrest _
    · rw [htr] at hhead
      rcases hs : dictGet states0 sn with _ | s0
      · simp only [connectOne, hhead, htr, hs]
      · simp only [connectOne, hhead, htr, hs]
        exact ih hrest _

theorem connectAll_ok_get {states0 : List (String × State)} {alpha : List String}
    {trans : List ((String × String) × String)} :
    ∀ {l l1 : List (String × State)}, connectAll states0 alpha trans l = Except.ok l1 →
      ∀ k : String,
        (∀ st1, dictGet l1 k = some st1 → ∃ st, dictGet l k = some st ∧
          connectOne states0 trans k st alpha = Except.ok st1) ∧
        (∀ st, dictGet l k = some st → ∃ st1, dictGet l1 k = some st1 ∧
          connectOne states0 trans k st alpha = Except.ok st1) := by
  intro l
  induction l with
  | nil =>
    intro l1 h k
    simp only [connectAll, Except.ok.injEq] at h
    subst h
    constructor
    · intro st1 h1; simp [dictGet] at h1
    · intro st h1; simp [dictGet] at h1
  | cons p rest ih =>
    obtain ⟨name, st⟩ := p
    intro l1 h k
    rcases hco : connectOne states0 trans name st alpha with e | st1
    · simp only [connectAll, hco] at h
      exact Except.noConfusion h
    · rcases hca : connectAll states0 alpha trans rest with e | rest1
      · simp only [connectAll, hco, hca] at h
        exact Except.noConfusion h
      · simp only [connectAll, hco, hca, Except.ok.injEq] at h
        subst h
        by_cases hk : name = k
        · subst hk
          constructor
          · intro s1 h1
            simp only [dictGet, if_pos rfl] at h1
            injection h1 with h1
            subst h1
            exact ⟨st, by simp [dictGet], hco⟩
          · intro s h1
            simp only [dictGet, if_pos rfl] at h1
            injection h1 with h1
            subst h1
            exact ⟨st1, by simp [dictGet], hco⟩
        · constructor
          · intro s1 h1
            simp only [dictGet, if_neg hk] at h1
            obtain ⟨s, h2, h3⟩ := (ih hca k).1 s1 h1
            exact ⟨s, by simp [dictGet, if_neg hk, h2], h3⟩
          · intro s h1
            simp only [dictGet, if_neg hk] at h1
            obtain ⟨s1, h2, h3⟩ := (ih hca k).2 s h1
            exact ⟨s1, by simp [dictGet, if_neg hk, h2], h3⟩

theorem connectAll_error_iff {states0 : List (String × State)} {alpha : List String}
    {trans : List ((String × String) × String)} :
    ∀ {l : List (String × State)},
      (∃ e, connectAll states0 alpha trans l = Except.error e) ↔
        ∃ name st, (name, st) ∈ l ∧
          ∃ e, connectOne states0 trans name st alpha = Except.error e := by
  intro l
  induction l with
  | nil => simp [connectAll]
  | cons p rest ih =>
    obtain ⟨name, st⟩ := p
    constructor
    · rintro ⟨e, h⟩
      rcases hco : connectOne states0 trans name st alpha with e0 | st1
      · exact ⟨name, st, List.mem_cons_self _ _, e0, hco⟩
      · rcases hca : connectAll states0 alpha trans rest with e0 | rest1
        · obtain ⟨n, s, hmem, he⟩ := ih.mp ⟨e0, hca⟩
          exact ⟨n, s, List.mem_cons_of_mem _ hmem, he⟩
        · simp only [connectAll, hco, hca] at h
          exact Except.noConfusion h
    · rintro ⟨n, s, hmem, e, he⟩
      rcases List.mem_cons.mp hmem with heq | hmem2
      · injection heq with heq1 heq2
        subst heq1; subst heq2
        exact ⟨e, by simp only [connectAll, he]⟩
      · rcases hco : connectOne states0 trans name st alpha with e0 | st1
        · exact ⟨e0, by simp only [connectAll, hco]⟩
        · obtain ⟨e1, he1⟩ := ih.mpr ⟨n, s, hmem2, e, he⟩
          exact ⟨e1, by simp only [connectAll, hco, he1]⟩

theorem connectAll_congr {states0 : List (String × State)} {alpha : List String}
    {t1 t2 : List ((String × String) × String)}
    (h : ∀ name sym, sym ∈ alpha → dictGet t1 (name, sym) = dictGet t2 (name, sym)) :
    ∀ l, connectAll states0 alpha t1 l = connectAll states0 alpha t2 l := by
  intro l
  induction l with
  | nil => simp [connectAll]
  | cons p rest ih =>
    obtain ⟨name, st⟩ := p
    have hone : connectOne states0 t1 name st alpha = connectOne states0 t2 name st alpha :=
      connectOne_congr (fun sym hsym => h name sym hsym) st
    rcases hco : connectOne states0 t2 name st alpha with e | st1
    · simp only [connectAll, hone, hco]
    · simp only [connectAll, hone, hco, ih]

/-! ### Properties of constructed automata -/

theorem mk_ok_elim {ns : List String} {init : String} {alpha : List String}
    {trans : List ((String × String) × String)} {a : Automaton}
    (h : Automaton.mk? ns init alpha trans = Except.ok a) :
    a.input_alphabet = alpha ∧ a.curr_state = init ∧ init ∈ ns ∧
      connectAll (buildStates ns) alpha trans (buildStates ns) = Except.ok a.states := by
  rcases hg : dictGet (buildStates ns) init with _ | st0
  · simp only [Automaton.mk?, hg] at h
    exact Except.noConfusion h
  · rcases hca : connectAll (buildStates ns) alpha trans (buildStates ns) with e | s1
    · simp only [Automaton.mk?, hg, hca] at h
      exact Except.noConfusion h
    · simp only [Automaton.mk?, hg, hca] at h
      injection h with h
      subst h
      have hbs := buildStates_get ns init
      rw [hg] at hbs
      by_cases hin : init ∈ ns
      · rw [if_pos hin] at hbs
        injection hbs with hbs
        exact ⟨rfl, by simp [hbs], hin, rfl⟩
      · rw [if_neg hin] at hbs
        exact absurd hbs (by simp)

theorem mk_ok_states_isSome {ns : List String} {init : String} {alpha : List String}
    {trans : List ((String × String) × String)} {a : Automaton}
    (h : Automaton.mk? ns init alpha trans = Except.ok a) (k : String) :
    (dictGet a.states k).isSome = true ↔ k ∈ ns := by
  obtain ⟨-, -, -, hca⟩ := mk_ok_elim h
  constructor
  · intro hk
    rcases hs : dictGet a.states k with _ | st1
    · rw [hs] at hk; simp at hk
    · obtain ⟨st, hst, -⟩ := (connectAll_ok_get hca k).1 st1 hs
      have := buildStates_get ns k
      rw [hst] at this
      by_cases hin : k ∈ ns
      · exact hin
      · rw [if_neg hin] at this
        exact absurd this (by simp)
  · intro hk
    have hst : dictGet (buildStates ns) k = some { state := k, successors := [] } := by
      rw [buildStates_get, if_pos hk]
    obtain ⟨st1, hst1, -⟩ := (connectAll_ok_get hca k).2 _ hst
    simp [hst1]

theorem mk_ok_state_name {ns : List String} {init : String} {alpha : List String}
    {trans : List ((String × String) × String)} {a : Automaton} {k : String} {st : State}
    (h : Automaton.mk? ns init alpha trans = Except.ok a)
    (hk : dictGet a.states k = some st) : st.state = k := by
  obtain ⟨-, -, -, hca⟩ := mk_ok_elim h
  obtain ⟨st0, hst0, hone⟩ := (connectAll_ok_get hca k).1 st hk
  have hbs := buildStates_get ns k
  rw [hst0] at hbs
  by_cases hin : k ∈ ns
  · rw [if_pos hin] at hbs
    injection hbs with hbs
    rw [connectOne_ok_state hone, hbs]
  · rw [if_neg hin] at hbs
    exact absurd hbs (by simp)

theorem mk_ok_succ_closed {ns : List String} {init : String} {alpha : List String}
    {trans : List ((String × String) × String)} {a : Automaton} {k : String} {st : State}
    {sym succ : String}
    (h : Automaton.mk? ns init alpha trans = Except.ok a)
    (hk : dictGet a.states k = some st) (hs : dictGet st.successors sym = some succ) :
    (dictGet a.states succ).isSome = true := by
  obtain ⟨-, -, -, hca⟩ := mk_ok_elim h
  obtain ⟨st0, hst0, hone⟩ := (connectAll_ok_get hca k).1 st hk
  have hbs := buildStates_get ns k
  rw [hst0] at hbs
  by_cases hin : k ∈ ns
  · rw [if_pos hin] at hbs
    injection hbs with hbs
    rcases connectOne_ok_successors hone sym succ hs with h2 | h2
    · rw [hbs] at h2
      simp [dictGet] at h2
    · rw [mk_ok_states_isSome h]
      rw [← buildStates_get_isSome ns succ]
      exact h2
  · rw [if_neg hin] at hbs
    exact absurd hbs (by simp)

/-- The structural invariant every constructed automaton satisfies: the
cursor names a declared state, every entry of the states dict is keyed by
its state's own name, and every recorded successor names a declared state. -/
def Wf (a : Automaton) : Prop :=
  (dictGet a.states a.curr_state).isSome = true ∧
  (∀ k st, dictGet a.states k = some st → st.state = k) ∧
  (∀ k st sym succ, dictGet a.states k = some st →
    dictGet st.successors sym = some succ → (dictGet a.states succ).isSome = true)

theorem mk_ok_wf {ns : List String} {init : String} {alpha : List String}
    {trans : List ((String × String) × String)} {a : Automaton}
    (h : Automaton.mk? ns init alpha trans = Except.ok a) : Wf a := by
  obtain ⟨-, hcurr, hin, -⟩ := mk_ok_elim h
  refine ⟨?_, fun k st hk => mk_ok_state_name h hk,
    fun k st sym succ hk hs => mk_ok_succ_closed h hk hs⟩
  rw [hcurr, mk_ok_states_isSome h]
  exact hin

theorem wf_currStateObj_state {a : Automaton} (h : Wf a) :
    a.currStateObj.state = a.curr_state := by
  unfold Automaton.currStateObj
  rcases hs : dictGet a.states a.curr_state with _ | st
  · simp
  · simpa using h.2.1 _ _ hs

theorem wf_processRun {a : Automaton} (h : Wf a) (k : AutKind) (sym : String) :
    Wf (processRun k a sym) := by
  by_cases hsym : sym ∈ a.input_alphabet
  · have hrun : processRun k a sym
        = { a with curr_state := a.currStateObj.process sym } := by
      simp only [processRun, processT, if_pos hsym]
    rw [hrun]
    refine ⟨?_, h.2.1, h.2.2⟩
    show (dictGet a.states (a.currStateObj.process sym)).isSome = true
    have h1 := h.1
    rcases hs : dictGet a.states a.curr_state with _ | st
    · rw [hs] at h1
      simp at h1
    · have hname := h.2.1 _ _ hs
      unfold Automaton.currStateObj
      rw [hs]
      simp only [Option.getD_some]
      unfold State.process
      rcases hsucc : dictGet st.successors sym with _ | succ
      · simp only [Option.getD_none]
        rw [hname, hs]
        simp
      · simp only [Option.getD_some]
        exact h.2.2 _ _ _ _ hs hsucc
  · have hrun : processRun k a sym = a := by
      simp only [processRun, processT, if_neg hsym]
    rw [hrun]
    exact h

theorem wf_setRun {a : Automaton} (h : Wf a) (n : String) : Wf (setRun a n) := by
  unfold setRun setCurrent
  rcases hs : dictGet a.states n with _ | st
  · exact h
  · refine ⟨?_, h.2.1, h.2.2⟩
    have hname := h.2.1 _ _ hs
    simp [hname, hs]

theorem wf_runOps {a : Automaton} (h : Wf a) (k : AutKind) (ops : List Op) :
    Wf (runOps k a ops) := by
  induction ops generalizing a with
  | nil => exact h
  | cons op rest ih =>
    have h1 : Wf (applyOp k a op) := by
      cases op with
      | proc sym => exact wf_processRun h k sym
      | setSt n => exact wf_setRun h n
    simpa [runOps, List.foldl_cons] using ih h1

theorem dictGet_filter_alpha (alpha : List String)
    (trans : List ((String × String) × String)) (name sym : String) (hsym : sym ∈ alpha) :
    dictGet (trans.filter fun e => decide (e.1.2 ∈ alpha)) (name, sym)
      = dictGet trans (name, sym) :=
  dictGet_filter_key (fun key => decide (key.2 ∈ alpha)) trans (name, sym)
    (by simpa using hsym)

/-! ### Concrete data for witnesses: the two-state automaton of the spec,
states `{A, B}`, alphabet `{0, 1}`, transitions `(A,0)->B` and `(B,1)->A`,
initial state `A`. -/

def exStates : List String := ["A", "B"]

def exAlpha : List String := ["0", "1"]

def exTrans : List ((String × String) × String) := [(("A", "0"), "B"), (("B", "1"), "A")]

def exAut : Automaton :=
  { states := [("A", { state := "A", successors := [("0", "B")] }),
               ("B", { state := "B", successors := [("1", "A")] })],
    input_alphabet := ["0", "1"], curr_state := "A" }

def exAutB : Automaton :=
  { states := [("A", { state := "A", successors := [("0", "B")] }),
               ("B", { state := "B", successors := [("1", "A")] })],
    input_alphabet := ["0", "1"], curr_state := "B" }

/-- An operation sequence that exercises a valid step, an administrative
jump, a `process` call that raises, and a jump that raises. -/
def demoOps : List Op := [Op.proc "0", Op.setSt "B", Op.proc "zz", Op.setSt "Q"]

/-! ### The claims -/

/-- C1: for every declared state `S` and every symbol `sym` of the input
alphabet, `process(sym)` with the cursor at `S` never fails due to an
undefined transition — it succeeds for every alphabet symbol — and when the
compiled successor map of `S` has no entry for `sym` the cursor afterwards
still names `S` (self-loop). -/
theorem process_totality {ns : List String} {init S sym : String} {alpha : List String}
    {trans : List ((String × String) × String)} {a0 : Automaton} (k : AutKind)
    (hmk : Automaton.mk? ns init alpha trans = Except.ok a0)
    (hS : S ∈ ns) (hsym : sym ∈ alpha) :
    ∃ a1, (processT k { a0 with curr_state := S } sym).2 = Except.ok a1 ∧
      (dictGet ({ a0 with curr_state := S } : Automaton).currStateObj.successors sym = none →
        a1.curr_state = S) := by
  obtain ⟨halpha, -, -, -⟩ := mk_ok_elim hmk
  have hmem : sym ∈ ({ a0 with curr_state := S } : Automaton).input_alphabet := by
    show sym ∈ a0.input_alphabet
    rw [halpha]
    exact hsym
  have hstep : (processT k { a0 with curr_state := S } sym).2
      = Except.ok { a0 with curr_state :=
          ({ a0 with curr_state := S } : Automaton).currStateObj.process sym } := by
    unfold processT
    rw [if_pos hmem]
  refine ⟨_, hstep, fun hnone => ?_⟩
  show ({ a0 with curr_state := S } : Automaton).currStateObj.process sym = S
  have hobj : ({ a0 with curr_state := S } : Automaton).currStateObj
      = (dictGet a0.states S).getD { state := S, successors := [] } := rfl
  rw [hobj] at hnone ⊢
  unfold State.process
  rw [hnone]
  simp only [Option.getD_none]
  rcases hs : dictGet a0.states S with _ | st
  · simp
  · simp only [Option.getD_some]
    exact mk_ok_state_name hmk hs

/-- C1 witness: the spec automaton, cursor at `A`, symbol `1` (no compiled
entry), steps successfully and self-loops. -/
theorem process_totality_witness :
    Automaton.mk? exStates "A" exAlpha exTrans = Except.ok exAut ∧
    "A" ∈ exStates ∧ "1" ∈ exAlpha ∧
    (∃ a1, (processT AutKind.base { exAut with curr_state := "A" } "1").2 = Except.ok a1 ∧
      (dictGet ({ exAut with curr_state := "A" } : Automaton).currStateObj.successors "1"
          = none → a1.curr_state = "A")) :=
  ⟨rfl, by decide, by decide,
    @process_totality exStates "A" "A" "1" exAlpha exTrans exAut AutKind.base rfl
      (by decide) (by decide)⟩

/-- C2: `process(sym)` for a symbol outside the input alphabet raises the
`ValueError` (with the source's message) and leaves the automaton object —
in particular its `current_state` — exactly as it was. -/
theorem alphabet_enforcement {a : Automaton} {sym : String} (k : AutKind)
    (hsym : sym ∉ a.input_alphabet) :
    processT k a sym = ([], Except.error (AutError.valueError
      "Unspecified input, not accepted by this automaton!")) ∧
    processRun k a sym = a := by
  constructor
  · unfold processT
    rw [if_neg hsym]
  · unfold processRun processT
    rw [if_neg hsym]

/-- C2 witness: symbol `2` is outside the spec automaton's alphabet. -/
theorem alphabet_enforcement_witness :
    "2" ∉ exAut.input_alphabet ∧
    (processT AutKind.mealy exAut "2" = ([], Except.error (AutError.valueError
      "Unspecified input, not accepted by this automaton!")) ∧
     processRun AutKind.mealy exAut "2" = exAut) :=
  ⟨by decide, alphabet_enforcement AutKind.mealy (by decide)⟩

/-- C3 counterexample: the transition table maps `("A", "b")` to the
undeclared successor `"Z"`, yet construction succeeds, because the symbol
`"b"` is not in the alphabet and the entry is never consulted — refuting
the claim that every entry with an undeclared successor makes construction
raise. -/
theorem construction_validation_counterexample :
    Automaton.mk? ["A"] "A" ["a"] [(("A", "b"), "Z")]
      = Except.ok { states := [("A", { state := "A", successors := [] })],
                    input_alphabet := ["a"], curr_state := "A" } ∧
    "Z" ∉ ["A"] := by
  exact ⟨rfl, by decide⟩

/-- C3 amended: construction fails exactly when the initial-state name is
undeclared, or some transition entry that is actually consulted during
compilation — its state name declared and its symbol in the alphabet —
names an undeclared successor. -/
theorem construction_error_iff (ns : List String) (init : String) (alpha : List String)
    (trans : List ((String × String) × String)) :
    (∃ e, Automaton.mk? ns init alpha trans = Except.error e) ↔
      (init ∉ ns ∨ ∃ name, name ∈ ns ∧ ∃ sym, sym ∈ alpha ∧ ∃ succ,
        dictGet trans (name, sym) = some succ ∧ succ ∉ ns) := by
  by_cases hin : init ∈ ns
  · have hg : dictGet (buildStates ns) init = some { state := init, successors := [] } := by
      rw [buildStates_get, if_pos hin]
    constructor
    · rintro ⟨e, h⟩
      simp only [Automaton.mk?, hg] at h
      rcases hca : connectAll (buildStates ns) alpha trans (buildStates ns) with e0 | s1
      · obtain ⟨name, st, hmem, e1, he1⟩ := connectAll_error_iff.mp ⟨e0, hca⟩
        obtain ⟨sym, hsym, succ, h1, h2⟩ := connectOne_error_iff.mp ⟨e1, he1⟩
        refine Or.inr ⟨name, mem_buildStates hmem, sym, hsym, succ, h1, ?_⟩
        rw [buildStates_get] at h2
        by_cases hsucc : succ ∈ ns
        · rw [if_pos hsucc] at h2
          exact absurd h2 (by simp)
        · exact hsucc
      · rw [hca] at h
        simp only [] at h
        exact Except.noConfusion h
    · rintro (hbad | ⟨name, hname, sym, hsym, succ, h1, h2⟩)
      · exact absurd hin hbad
      · have hone : ∃ e, connectOne (buildStates ns) trans name
            { state := name, successors := [] } alpha = Except.error e := by
          refine connectOne_error_iff.mpr ⟨sym, hsym, succ, h1, ?_⟩
          rw [buildStates_get, if_neg h2]
        have hmem : ((name, { state := name, successors := [] }) : String × State)
            ∈ buildStates ns := by
          have hb := buildStates_get ns name
          rw [if_pos hname] at hb
          exact dictGet_mem hb
        obtain ⟨e0, he0⟩ := connectAll_error_iff.mpr ⟨name, _, hmem, hone⟩
        exact ⟨e0, by simp only [Automaton.mk?, hg, he0]⟩
  · have hg : dictGet (buildStates ns) init = none := by
      rw [buildStates_get, if_neg hin]
    constructor
    · intro _
      exact Or.inl hin
    · intro _
      exact ⟨AutError.keyError init, by simp only [Automaton.mk?, hg]⟩

/-- C4: constructing a `MooreAutomaton` invokes the output callback exactly
once, with the initial state's name (before any `process` call), and every
successful `process` call invokes it exactly once, with the name of the
current state after the cursor has moved. -/
theorem moore_emission {ns : List String} {init sym : String} {alpha : List String}
    {trans : List ((String × String) × String)} {a0 a a1 : Automaton} {evs0 : List OutEvent}
    (hmk : mkMoore? ns init alpha trans = Except.ok (a0, evs0))
    (hp : (processT AutKind.moore a sym).2 = Except.ok a1) :
    evs0 = [OutEvent.moore init] ∧
    (processT AutKind.moore a sym).1 = [OutEvent.moore a1.current_state] := by
  constructor
  · rcases hmk0 : Automaton.mk? ns init alpha trans with e | b
    · simp only [mkMoore?, hmk0, Except.map] at hmk
      exact Except.noConfusion hmk
    · simp only [mkMoore?, hmk0, Except.map] at hmk
      injection hmk with hmk
      rw [Prod.mk.injEq] at hmk
      have hcs : b.current_state = init := by
        have h1 := wf_currStateObj_state (mk_ok_wf hmk0)
        have h2 := (mk_ok_elim hmk0).2.1
        unfold Automaton.current_state
        rw [h1, h2]
      rw [← hmk.2, hcs]
      rfl
  · by_cases hsym : sym ∈ a.input_alphabet
    · have h2 : (processT AutKind.moore a sym).2
          = Except.ok { a with curr_state := a.currStateObj.process sym } := by
        unfold processT
        rw [if_pos hsym]
      rw [h2] at hp
      injection hp with hp
      have h1 : (processT AutKind.moore a sym).1
          = [OutEvent.moore
              ({ a with curr_state := a.currStateObj.process sym } : Automaton).current_state] := by
        unfold processT
        rw [if_pos hsym]
        simp [exitOutputs, enterOutputs]
      rw [h1, hp]
    · unfold processT at hp
      rw [if_neg hsym] at hp
      exact Except.noConfusion hp

/-- C4 witness: the spec's Moore automaton emits `A` at construction, and
processing `0` emits the post-move state `B`. -/
theorem moore_emission_witness :
    mkMoore? exStates "A" exAlpha exTrans = Except.ok (exAut, [OutEvent.moore "A"]) ∧
    (processT AutKind.moore exAut "0").2 = Except.ok exAutB ∧
    ([OutEvent.moore "A"] = [OutEvent.moore "A"] ∧
      (processT AutKind.moore exAut "0").1 = [OutEvent.moore exAutB.current_state]) :=
  ⟨rfl, rfl,
    @moore_emission exStates "A" "0" exAlpha exTrans exAut exAut exAutB
      [OutEvent.moore "A"] rfl rfl⟩

/-- C5: every successful `process(sym)` call on a `MealyAutomaton` invokes
the output callback exactly once, with the pre-transition state's name and
the symbol — the exit hook runs before the cursor moves, so the emitted
state is the one the automaton is leaving. -/
theorem mealy_emission {a a1 : Automaton} {sym : String}
    (hp : (processT AutKind.mealy a sym).2 = Except.ok a1) :
    (processT AutKind.mealy a sym).1 = [OutEvent.mealy a.current_state (some sym)] := by
  by_cases hsym : sym ∈ a.input_alphabet
  · unfold processT
    rw [if_pos hsym]
    simp [exitOutputs, enterOutputs]
  · unfold processT at hp
    rw [if_neg hsym] at hp
    exact Except.noConfusion hp

/-- C5 witness: processing `0` on the spec's Mealy automaton emits the
pre-move state `A` paired with the symbol `0`. -/
theorem mealy_emission_witness :
    (processT AutKind.mealy exAut "0").2 = Except.ok exAutB ∧
    (processT AutKind.mealy exAut "0").1 = [OutEvent.mealy exAut.current_state (some "0")] :=
  ⟨rfl, @mealy_emission exAut exAutB "0" rfl⟩

/-- C6 counterexample: constructing a `MealyAutomaton` produces no output
event at all — the claim asserts exactly one callback invocation with the
initial state's name and the null symbol. `MealyAutomaton.__init__` calls
`self._enter_state(None)`, but Mealy overrides only `_exit_state`, so the
call dispatches to the base class no-op. -/
theorem mealy_construction_counterexample :
    mkMealy? ["A"] "A" ["x"] []
      = Except.ok ({ states := [("A", { state := "A", successors := [] })],
                     input_alphabet := ["x"], curr_state := "A" }, ([] : List OutEvent)) ∧
    ([] : List OutEvent) ≠ [OutEvent.mealy "A" none] := by
  exact ⟨rfl, by simp⟩

/-- C6 amended: constructing a `MealyAutomaton` triggers the enter hook
once with a null symbol; since Mealy does not override the enter hook this
is the base class no-op, so construction invokes the output callback zero
times. -/
theorem mealy_construction_silent {ns : List String} {init : String} {alpha : List String}
    {trans : List ((String × String) × String)} {a0 : Automaton} {evs0 : List OutEvent}
    (hmk : mkMealy? ns init alpha trans = Except.ok (a0, evs0)) :
    evs0 = [] := by
  rcases hmk0 : Automaton.mk? ns init alpha trans with e | b
  · simp only [mkMealy?, hmk0, Except.map] at hmk
    exact Except.noConfusion hmk
  · simp only [mkMealy?, hmk0, Except.map] at hmk
    injection hmk with hmk
    rw [Prod.mk.injEq] at hmk
    rw [← hmk.2]
    rfl

/-- C6 amended witness: a concrete Mealy construction with an empty
event trace. -/
theorem mealy_construction_silent_witness :
    mkMealy? exStates "A" exAlpha exTrans = Except.ok (exAut, ([] : List OutEvent)) ∧
    ([] : List OutEvent) = [] :=
  ⟨rfl, @mealy_construction_silent exStates "A" exAlpha exTrans exAut [] rfl⟩

/-- C7: transition-table entries whose symbol is not in the declared input
alphabet are never consulted during compilation — removing all of them
yields the same construction result (same automaton or same error) on
every input. -/
theorem compile_ignores_nonalphabet_entries (ns : List String) (init : String)
    (alpha : List String) (trans : List ((String × String) × String)) :
    Automaton.mk? ns init alpha (trans.filter fun e => decide (e.1.2 ∈ alpha))
      = Automaton.mk? ns init alpha trans := by
  simp only [Automaton.mk?]
  rw [connectAll_congr
    (fun name sym hsym => dictGet_filter_alpha alpha trans name sym hsym) (buildStates ns)]

/-- C8: on a constructed automaton, assigning `current_state` to a declared
name jumps the cursor there with no callback invocation (empty trace),
assigning an undeclared name raises `KeyError` (also with no callback), and
reading `current_state` yields the name of the cursor's state. -/
theorem admin_jump {ns : List String} {init n m : String} {alpha : List String}
    {trans : List ((String × String) × String)} {a : Automaton}
    (hmk : Automaton.mk? ns init alpha trans = Except.ok a)
    (hn : n ∈ ns) (hm : m ∉ ns) :
    (∃ a1, setCurrent a n = ([], Except.ok a1) ∧ a1.current_state = n ∧ a1.curr_state = n) ∧
    setCurrent a m = ([], Except.error (AutError.keyError m)) ∧
    a.current_state = a.curr_state := by
  refine ⟨?_, ?_, wf_currStateObj_state (mk_ok_wf hmk)⟩
  · have hsome : (dictGet a.states n).isSome = true := (mk_ok_states_isSome hmk n).mpr hn
    rcases hs : dictGet a.states n with _ | st
    · rw [hs] at hsome
      simp at hsome
    · have hname := mk_ok_state_name hmk hs
      refine ⟨{ a with curr_state := st.state }, ?_, ?_, by simp [hname]⟩
      · unfold setCurrent
        rw [hs]
      · show ((dictGet a.states st.state).getD
            { state := st.state, successors := [] }).state = n
        rw [hname, hs]
        simpa using hname
  · have hnone : dictGet a.states m = none := by
      rcases hs : dictGet a.states m with _ | st
      · rfl
      · have hsome : (dictGet a.states m).isSome = true := by
          rw [hs]
          rfl
        rw [mk_ok_states_isSome hmk] at hsome
        exact absurd hsome hm
    unfold setCurrent
    rw [hnone]

/-- C8 witness: on the spec automaton, jumping to the declared `B` succeeds
silently and jumping to the undeclared `Z` raises `KeyError`. -/
theorem admin_jump_witness :
    Automaton.mk? exStates "A" exAlpha exTrans = Except.ok exAut ∧
    "B" ∈ exStates ∧ "Z" ∉ exStates ∧
    ((∃ a1, setCurrent exAut "B" = ([], Except.ok a1) ∧
        a1.current_state = "B" ∧ a1.curr_state = "B") ∧
     setCurrent exAut "Z" = ([], Except.error (AutError.keyError "Z")) ∧
     exAut.current_state = exAut.curr_state) :=
  ⟨rfl, by decide, by decide,
    @admin_jump exStates "A" "B" "Z" exAlpha exTrans exAut rfl (by decide) (by decide)⟩

/-- C9: for every constructed automaton and every sequence of operations —
`process` calls with arbitrary symbols and administrative cursor
assignments, error paths included — the cursor still names a state present
in the automaton's `states` dict. -/
theorem cursor_always_in_states {ns : List String} {init : String} {alpha : List String}
    {trans : List ((String × String) × String)} {a : Automaton}
    (hmk : Automaton.mk? ns init alpha trans = Except.ok a)
    (k : AutKind) (ops : List Op) :
    (dictGet (runOps k a ops).states (runOps k a ops).curr_state).isSome = true :=
  (wf_runOps (mk_ok_wf hmk) k ops).1

/-- C9 witness: a sequence with a valid step, an administrative jump, a
`process` call that raises and a jump that raises, on the spec automaton. -/
theorem cursor_always_in_states_witness :
    Automaton.mk? exStates "A" exAlpha exTrans = Except.ok exAut ∧
    (dictGet (runOps AutKind.moore exAut demoOps).states
      (runOps AutKind.moore exAut demoOps).curr_state).isSome = true :=
  ⟨rfl, @cursor_always_in_states exStates "A" exAlpha exTrans exAut rfl AutKind.moore demoOps⟩

/-- C10: `process(sym)` with `sym` outside the alphabet raises before
either hook runs, so neither a Moore nor a Mealy automaton's output
callback is invoked at all on that call — the event trace is empty, not
merely the cursor unchanged. -/
theorem invalid_input_no_callback {a : Automaton} {sym : String}
    (hsym : sym ∉ a.input_alphabet) :
    (processT AutKind.moore a sym).1 = [] ∧
    (processT AutKind.mealy a sym).1 = [] ∧
    (processT AutKind.moore a sym).2 = Except.error (AutError.valueError
      "Unspecified input, not accepted by this automaton!") ∧
    (processT AutKind.mealy a sym).2 = Except.error (AutError.valueError
      "Unspecified input, not accepted by this automaton!") := by
  refine ⟨?_, ?_, ?_, ?_⟩ <;> (unfold processT; rw [if_neg hsym])

/-- C10 witness: symbol `7` is outside the spec automaton's alphabet;
Moore and Mealy both raise with an empty event trace. -/
theorem invalid_input_no_callback_witness :
    "7" ∉ exAut.input_alphabet ∧
    ((processT AutKind.moore exAut "7").1 = [] ∧
     (processT AutKind.mealy exAut "7").1 = [] ∧
     (processT AutKind.moore exAut "7").2 = Except.error (AutError.valueError
       "Unspecified input, not accepted by this automaton!") ∧
     (processT AutKind.mealy exAut "7").2 = Except.error (AutError.valueError
       "Unspecified input, not accepted by this automaton!")) :=
  ⟨by decide, @invalid_input_no_callback exAut "7" (by decide)⟩

end AutomatonPy
